import Mathlib

/-!
Verification of the `seq` library (profiles, Plan7 HMMs, pairwise global
alignment) against its natural-language specification.

The Go source is embedded shallowly:

* `Residue` (a one-byte symbol in Go) is modelled as `Char`; `Alphabet` and
  `Sequence` as lists of residues (the defining Go file is not part of the
  sources provided, so these follow the specification's data model).
* `Prob` (Go `float64` holding a log-odds score) is modelled as a real
  number; `MinProb` is the exact rational value of `math.MaxFloat64`,
  namely `2^1024 - 2^971`.
* Go maps (`EProbs = map[Residue]Prob`, frequency columns
  `map[Residue]int`) are modelled as association lists; a map read of an
  absent key yields the zero value, exactly as in Go.
* The Go node slice of an `HMM` is modelled with its capacity: `Nodes`
  holds the visible elements and `NodesSpare` the backing-array cells
  between length and capacity, which Go slice expressions may still
  reach (they are bounds-checked against the capacity).
* Methods that panic are modelled as `Option`/error-returning functions;
  the method `FrequencyProfile.Add`, which mutates its receiver in place
  and can panic mid-loop, is modelled as a state-passing function that
  returns the receiver's post-state (the state visible after a recovered
  panic) together with an optional error.
-/

namespace Seq

/-- A residue: one symbol of a biological sequence (Go: a byte). -/
abbrev Residue := Char

/-- Modelled from the spec: the file defining `Alphabet` is not among the
provided sources.  An alphabet is an ordered list of residues. -/
abbrev Alphabet := List Residue

/-- Modelled from the spec: the file defining `Sequence` is not among the
provided sources.  Only the ordered residues of a sequence matter here. -/
abbrev Sequence := List Residue

/-- Modelled from the spec: `Alphabet.Equals` is defined in a source file
not provided.  Per the spec, two alphabets are equal iff they hold the
same residues in the same order. -/
def Alphabet.Equals (a b : Alphabet) : Bool := a == b

/-- `Prob` represents a transition or emission probability as a log-odds
score (Go: `float64`), modelled as a real number. -/
abbrev Prob := ℝ

/-- The value representing a minimum emission/transition probability
(Go: `math.MaxFloat64 = (2 - 2^-52)·2^1023 = 2^1024 - 2^971`). -/
def MinProb : Prob := 2 ^ 1024 - 2 ^ 971

/-- `IsMin` returns true if the probability is minimal (Go: `p == MinProb`). -/
def Prob.IsMin (p : Prob) : Prop := p = MinProb

open Classical in
/-- `Ratio` returns the log probability as a ratio in the range [0, 1]:
`0` for the sentinel, `exp(-p)` otherwise. -/
noncomputable def Prob.Ratio (p : Prob) : ℝ :=
  if Prob.IsMin p then 0 else Real.exp (-p)

open Classical in
/-- `String` renders a probability: the sentinel becomes the literal `*`,
any other value is formatted as a decimal float by the (external) Go
runtime, modelled by the parameter `format`. -/
noncomputable def Prob.Repr (format : ℝ → String) (p : Prob) : String :=
  if Prob.IsMin p then ("*") else format p

/-- `NewProb` creates a probability from a string: `*` yields the
sentinel, anything else goes through the (external) float parser,
modelled by the parameter `parse`; a parse failure yields `none`. -/
def NewProb (parse : String → Option ℝ) (fstr : String) : Option Prob :=
  if fstr = ("*") then some MinProb
  else
    match parse fstr with
    | some f => some f
    | none => none

/-- `EProbs` represents emission probabilities as log-odds scores
(Go: `map[Residue]Prob`, here an association list). -/
abbrev EProbs := List (Residue × Prob)

/-- `NewEProbs` creates an emission table whose keys are the alphabet's
residues, every value defaulted to the minimum probability. -/
def NewEProbs (alphabet : Alphabet) : EProbs :=
  alphabet.map (fun residue => (residue, MinProb))

/-- `EmitProb` returns the emission probability for a residue; an absent
key yields the Go map zero value `0.0`. -/
def EProbs.EmitProb (ep : EProbs) (r : Residue) : Prob :=
  (List.lookup r ep).getD 0

/-- `TProbs` represents the seven Plan7 transition probabilities. -/
structure TProbs where
  MM : Prob
  MI : Prob
  MD : Prob
  IM : Prob
  II : Prob
  DM : Prob
  DD : Prob

/-- One HMM node.  The Go back-pointer to the owning HMM is a non-owning
association and is omitted here (the spec models it as external context). -/
structure HMMNode where
  Residue : Residue
  NodeNum : Int
  InsEmit : EProbs
  MatEmit : EProbs
  Transitions : TProbs
  NeffM : Prob
  NeffI : Prob
  NeffD : Prob

/-- A Plan7 HMM: ordered nodes, an alphabet, and a background model.
A Go slice carries a capacity as well as a length: `Nodes` holds the
visible elements (the length), and `NodesSpare` the cells of the backing
array between the length and the capacity — stale or zero values that a
slice expression may still reach, since Go bounds-checks `nodes[a:b]`
against the capacity, not the length. -/
structure HMM where
  Nodes : List HMMNode
  NodesSpare : List HMMNode
  Alphabet : Alphabet
  Null : EProbs

/-- The capacity of the Go `Nodes` slice. -/
def HMM.cap (hmm : HMM) : ℕ :=
  hmm.Nodes.length + hmm.NodesSpare.length

/-- The transition table forced onto the last node of a slice:
(MM, MI, MD, IM, II, DM, DD) = (0, *, *, 0, *, 0, *). -/
def slicedEndT : TProbs :=
  { MM := 0, MI := MinProb, MD := MinProb, IM := 0
    II := MinProb, DM := 0, DD := MinProb }

/-- `Slice` returns the nodes in `[start, stop)` with the last node's
transitions forced to `slicedEndT`.  In Go the method panics — a
slice-expression or index-out-of-range runtime error, modelled as
`none` — exactly when `start < 0`, `stop > cap(nodes)` (the slice
expression `hmm.Nodes[start:stop]` is checked against the capacity, not
the length), `start > stop`, or `stop = start` (then `nodes[-1]` is
indexed).  Within capacity the slice expression reads from the backing
array `Nodes ++ NodesSpare`, so positions past `len(Nodes)` yield its
stale or zero cells; the result, built by `make`, has no spare
capacity. -/
def HMM.Slice (hmm : HMM) (start stop : Int) : Option HMM :=
  if 0 ≤ start ∧ start < stop ∧ stop ≤ (hmm.cap : Int) then
    let nodes :=
      ((hmm.Nodes ++ hmm.NodesSpare).drop start.toNat).take
        (stop - start).toNat
    let nodes2 :=
      match nodes.getLast? with
      | some nd => nodes.dropLast ++ [{ nd with Transitions := slicedEndT }]
      | none => nodes
    some { Nodes := nodes2, NodesSpare := [], Alphabet := hmm.Alphabet,
           Null := hmm.Null }
  else none

/-- `Slice` as a state-passing call on its receiver.  The Go method writes
only into the freshly allocated `nodes` array (and `TProbs` is a value
struct copied along with each node), so the receiver's post-state is its
pre-state. -/
def HMM.SliceSt (hmm : HMM) (start stop : Int) : HMM × Option HMM :=
  (hmm, hmm.Slice start stop)

/-- A frequency column (Go: `map[Residue]int`, here an association list). -/
abbrev FreqMap := List (Residue × ℕ)

/-- A Go map read: an absent key yields the zero value `0`. -/
def FreqMap.get (m : FreqMap) (r : Residue) : ℕ :=
  (List.lookup r m).getD 0

/-- `m[r] += 1` on an existing key: the entry with key `r` is bumped. -/
def FreqMap.incr (m : FreqMap) (r : Residue) : FreqMap :=
  m.map (fun p => if p.1 == r then (p.1, p.2 + 1) else p)

/-- `freqTotal` computes the total frequency in a single column (the sum
of the map's values). -/
def freqTotal (column : FreqMap) : ℕ :=
  (column.map (fun p => p.2)).sum

/-- `Profile` represents a sequence profile in terms of log-odds scores. -/
structure Profile where
  Emissions : List EProbs
  Alphabet : Alphabet

/-- The number of columns of a profile. -/
def Profile.Len (p : Profile) : ℕ := p.Emissions.length

/-- `FrequencyProfile` represents a sequence profile as raw counts. -/
structure FrequencyProfile where
  Freqs : List FreqMap
  Alphabet : Alphabet

/-- `Len` returns the number of columns in the frequency profile. -/
def FrequencyProfile.Len (fp : FrequencyProfile) : ℕ := fp.Freqs.length

/-- `NewFrequencyProfileAlphabet` zero-initializes every column over the
full alphabet (in Go the map construction de-duplicates repeated keys). -/
def NewFrequencyProfileAlphabet (columns : ℕ) (alphabet : Alphabet) :
    FrequencyProfile :=
  { Freqs := List.replicate columns (alphabet.dedup.map (fun r => (r, 0)))
    Alphabet := alphabet }

/-- Well-formedness maintained by the constructors: every column's key
list is exactly the (duplicate-free) alphabet. -/
def FrequencyProfile.Wf (fp : FrequencyProfile) : Prop :=
  fp.Alphabet.Nodup ∧ ∀ c ∈ fp.Freqs, c.map Prod.fst = fp.Alphabet

/-- The failures `FrequencyProfile`'s methods can raise (Go: panics). -/
inductive SeqError where
  | LengthMismatch (plen slen : ℕ)
  | UnrecognizedResidue (r : Residue)
deriving DecidableEq

/-- The column loop of `FrequencyProfile.Add`: each column is matched to
the sequence residue at the same position; a recognized residue's count
is bumped, an unrecognized one falls back to the wildcard key `X` when
present, and otherwise the loop panics, leaving the columns that were
already processed incremented and the rest untouched. -/
def addLoop : List FreqMap → List Residue → List FreqMap × Option SeqError
  | [], _ => ([], none)
  | cs, [] => (cs, none)
  | c :: cs, r :: rs =>
    if (List.lookup r c).isSome then
      let p := addLoop cs rs
      (FreqMap.incr c r :: p.1, p.2)
    else if (List.lookup 'X' c).isSome then
      let p := addLoop cs rs
      (FreqMap.incr c 'X' :: p.1, p.2)
    else (c :: cs, some (SeqError.UnrecognizedResidue r))

/-- `Add` adds a sequence to the profile.  The Go method mutates its
receiver and panics on a length mismatch (before any mutation) or on an
unrecognized residue without wildcard (mid-loop); the returned profile is
the receiver's post-state, paired with the panic, if any. -/
def FrequencyProfile.Add (fp : FrequencyProfile) (s : Sequence) :
    FrequencyProfile × Option SeqError :=
  if fp.Len ≠ s.length then
    (fp, some (SeqError.LengthMismatch fp.Len s.length))
  else
    let p := addLoop fp.Freqs s
    ({ fp with Freqs := p.1 }, p.2)

open Classical in
/-- `Profile` converts raw frequencies to log-odds scores against a
single-column null model.  The Go method panics when the null model does
not have exactly one column or the alphabets differ (modelled as `none`);
otherwise every column/residue entry of a fresh profile is assigned
`MinProb` when either count is zero and `-ln((count/colTotal) /
(backgroundCount/bgTotal))` otherwise.  (Go fills the `NewEProbs` table
by assigning each alphabet residue once; the assignments are written
here as the resulting table directly.) -/
noncomputable def FrequencyProfile.Profile (fp : FrequencyProfile)
    (null : FrequencyProfile) : Option Profile :=
  if null.Len ≠ 1 then none
  else if ¬ Alphabet.Equals fp.Alphabet null.Alphabet then none
  else
    let null0 := null.Freqs.getD 0 []
    let nulltot := freqTotal null0
    let nullemit : Residue → ℝ := fun r => (null0.get r : ℝ) / (nulltot : ℝ)
    some
      { Emissions := fp.Freqs.map (fun col =>
          let tot := freqTotal col
          fp.Alphabet.map (fun r =>
            (r, if null0.get r = 0 ∨ col.get r = 0 then MinProb
                else -(Real.log (((col.get r : ℝ) / (tot : ℝ)) / nullemit r)))))
        Alphabet := fp.Alphabet }

/-- The gap symbol emitted by the alignment engine. -/
def gapSym : Residue := '-'

/-- Modelled from the spec: the alignment engine's source file is not
among the provided sources (only its test is).  `nwScore sub g A B i j`
is the dynamic-programming matrix cell holding the best cumulative score
for aligning the first `i` residues of `A` against the first `j` residues
of `B`: row and column 0 accumulate the fixed gap penalty `g`, and an
inner cell maximizes over the diagonal (substitution score from the
scoring source `sub`), vertical and horizontal predecessors. -/
def nwScore (sub : Residue → Residue → ℤ) (g : ℤ) (A B : List Residue)
    (i j : ℕ) : ℤ :=
  match i, j with
  | 0, 0 => 0
  | i + 1, 0 => nwScore sub g A B i 0 + g
  | 0, j + 1 => nwScore sub g A B 0 j + g
  | i + 1, j + 1 =>
    max (max (nwScore sub g A B i j + sub (A.getD i gapSym) (B.getD j gapSym))
             (nwScore sub g A B i (j + 1) + g))
        (nwScore sub g A B (i + 1) j + g)
termination_by (i, j)

/-- Modelled from the spec: the traceback of the alignment engine (whose
source file is not provided).  Starting from cell `(i, j)` it walks back
to `(0, 0)`, preferring on ties the diagonal over the vertical over the
horizontal predecessor (the fixed deterministic priority pinned per the
spec), emitting one aligned symbol per sequence and a gap symbol for the
sequence that did not advance. -/
def nwTrace (sub : Residue → Residue → ℤ) (g : ℤ) (A B : List Residue)
    (i j : ℕ) : List Residue × List Residue :=
  match i, j with
  | 0, 0 => ([], [])
  | i + 1, 0 =>
    let p := nwTrace sub g A B i 0
    (p.1 ++ [A.getD i gapSym], p.2 ++ [gapSym])
  | 0, j + 1 =>
    let p := nwTrace sub g A B 0 j
    (p.1 ++ [gapSym], p.2 ++ [B.getD j gapSym])
  | i + 1, j + 1 =>
    if nwScore sub g A B (i + 1) (j + 1) =
        nwScore sub g A B i j + sub (A.getD i gapSym) (B.getD j gapSym) then
      let p := nwTrace sub g A B i j
      (p.1 ++ [A.getD i gapSym], p.2 ++ [B.getD j gapSym])
    else if nwScore sub g A B (i + 1) (j + 1) =
        nwScore sub g A B i (j + 1) + g then
      let p := nwTrace sub g A B i (j + 1)
      (p.1 ++ [A.getD i gapSym], p.2 ++ [gapSym])
    else
      let p := nwTrace sub g A B (i + 1) j
      (p.1 ++ [gapSym], p.2 ++ [B.getD j gapSym])
termination_by (i, j)

/-- Modelled from the spec: global pairwise alignment (the source file is
not provided).  It fills the DP matrix and tracebacks from the corner
cell `(len A, len B)`. -/
def NeedlemanWunsch (sub : Residue → Residue → ℤ) (g : ℤ)
    (A B : List Residue) : List Residue × List Residue :=
  nwTrace sub g A B A.length B.length

/-! ### Helper lemmas -/

/-- `MinProb` is the huge positive float-max value, in particular nonzero. -/
lemma minProb_pos : 0 < MinProb := by
  unfold MinProb
  have h : (2 : ℝ) ^ 971 < 2 ^ 1024 := by
    gcongr
    · exact one_lt_two
    · omega
  linarith

lemma minProb_ne_zero : MinProb ≠ 0 := ne_of_gt minProb_pos

/-- A lookup over an alphabet-built table misses exactly the residues
outside the alphabet. -/
lemma lookup_map_const_none {a : Alphabet} {r : Residue} (f : Residue → Prob)
    (h : r ∉ a) : List.lookup r (a.map (fun x => (x, f x))) = none := by
  induction a with
  | nil => rfl
  | cons x xs ih =>
    simp only [List.map_cons, List.lookup_cons]
    have hx : r ≠ x := by
      intro hrx
      exact h (hrx ▸ List.mem_cons_self x xs)
    simp only [beq_eq_false_iff_ne.mpr hx]
    exact ih (fun hm => h (List.mem_cons_of_mem x hm))

/-! ### Sample data used by witnesses -/

def sampleNode : HMMNode :=
  { Residue := 'A', NodeNum := 1, InsEmit := [], MatEmit := []
    Transitions := ⟨1, 2, 3, 4, 5, 6, 7⟩, NeffM := 0, NeffI := 0, NeffD := 0 }

def sampleHMM : HMM :=
  { Nodes := [sampleNode, sampleNode], NodesSpare := [], Alphabet := ['A']
    Null := [] }

/-- An HMM whose node slice has one visible node but capacity two: the
backing array holds one more (stale) cell past the length. -/
def capHMM : HMM :=
  { Nodes := [sampleNode], NodesSpare := [sampleNode], Alphabet := ['A']
    Null := [] }

/-! ### Claim C9: Ratio -/

/-- C9: for every probability `p`, `Ratio p` is exactly `0` when `p` is
the `MinProbability` sentinel and `exp (-p)` otherwise. -/
theorem prob_ratio_spec (p : Prob) :
    (Prob.IsMin p → Prob.Ratio p = 0) ∧
    (¬ Prob.IsMin p → Prob.Ratio p = Real.exp (-p)) := by
  constructor <;> intro h <;> simp [Prob.Ratio, h]

lemma one_not_min : ¬ Prob.IsMin 1 := by
  unfold Prob.IsMin
  intro h
  have := minProb_pos
  unfold MinProb at h this
  norm_num at h

/-- Witness for C9 at the sentinel and at the ordinary value `1`. -/
theorem prob_ratio_spec_witness :
    Prob.Ratio MinProb = 0 ∧ Prob.Ratio 1 = Real.exp (-1) :=
  ⟨(prob_ratio_spec MinProb).1 rfl, (prob_ratio_spec 1).2 one_not_min⟩

/-! ### Claim C10: EmitProb for residues outside the alphabet -/

/-- C10: a residue absent from the alphabet an emission table was built
from is looked up as the Go map zero value, the log-odds score `0`,
which decodes through `Ratio` to probability `1` — not `MinProbability`
and not an error. -/
theorem emitProb_missing_residue (a : Alphabet) (r : Residue) (h : r ∉ a) :
    EProbs.EmitProb (NewEProbs a) r = 0 ∧
    Prob.Ratio (EProbs.EmitProb (NewEProbs a) r) = 1 := by
  have hl : List.lookup r (NewEProbs a) = none :=
    lookup_map_const_none (fun _ => MinProb) h
  have he : EProbs.EmitProb (NewEProbs a) r = 0 := by
    simp [EProbs.EmitProb, hl]
  refine ⟨he, ?_⟩
  rw [he]
  have h0 : ¬ Prob.IsMin 0 := fun h0 => minProb_ne_zero h0.symm
  rw [(prob_ratio_spec 0).2 h0]
  simp

/-- Witness for C10: `B` is not in the one-letter alphabet `[A]`. -/
theorem emitProb_missing_residue_witness :
    ('B' ∉ (['A'] : Alphabet)) ∧
    (EProbs.EmitProb (NewEProbs ['A']) 'B' = 0 ∧
     Prob.Ratio (EProbs.EmitProb (NewEProbs ['A']) 'B') = 1) :=
  ⟨by decide, emitProb_missing_residue ['A'] 'B' (by decide)⟩

/-! ### Claim C7: probability serialization round-trip -/

/-- C7: parsing the rendering of a probability yields the probability
back: the sentinel round-trips through the literal `*`, and any other
value round-trips through the external float formatter/parser pair
(whose Go-documented shortest-round-trip guarantee is the hypothesis
`hparse`; `hfmt` records that the formatter never emits `*`). -/
theorem prob_roundtrip (format : ℝ → String) (parse : String → Option ℝ)
    (p : Prob) (hfmt : format p ≠ ("*"))
    (hparse : ¬ Prob.IsMin p → parse (format p) = some p) :
    NewProb parse (Prob.Repr format p) = some p := by
  by_cases hm : Prob.IsMin p
  · rw [Prob.Repr, if_pos hm]
    unfold NewProb
    rw [if_pos rfl, hm]
  · rw [Prob.Repr, if_neg hm]
    unfold NewProb
    rw [if_neg hfmt, hparse hm]

open Classical in
noncomputable def sampleFormat : ℝ → String :=
  fun x => if x = 0 then ("0") else ("?")

def sampleParse : String → Option ℝ :=
  fun s => if s = ("0") then some 0 else none

lemma sampleFormat_zero : sampleFormat 0 = ("0") := by
  simp [sampleFormat]

/-- Witness for C7 on the ordinary (non-sentinel) value `0` with a
concrete formatter/parser pair satisfying the round-trip guarantee. -/
theorem prob_roundtrip_witness :
    (sampleFormat 0 ≠ ("*") ∧ sampleParse (sampleFormat 0) = some 0) ∧
    NewProb sampleParse (Prob.Repr sampleFormat 0) = some 0 := by
  have h1 : sampleFormat 0 ≠ ("*") := by
    rw [sampleFormat_zero]
    decide
  have h2 : sampleParse (sampleFormat 0) = some 0 := by
    rw [sampleFormat_zero]
    simp [sampleParse]
  exact ⟨⟨h1, h2⟩, prob_roundtrip sampleFormat sampleParse 0 h1 (fun _ => h2)⟩

/-! ### Claim C5: Slice bounds failures -/

/-- C5 counterexample: `capHMM` has one visible node but node-slice
capacity two, so the pair `(0, 2)` satisfies the claim's failure
condition `end > len(nodes)` — yet no Go statement panics (`make`, the
capacity-checked slice expression, `copy` and `nodes[1]` all succeed)
and `Slice` returns an HMM, refuting "fails and returns no HMM". -/
theorem slice_len_cap_cex :
    ((capHMM.Nodes.length : Int) < 2 ∧ (0 : Int) ≤ 0 ∧ (0 : Int) < 2) ∧
    capHMM.Slice 0 2 ≠ none := by
  refine ⟨⟨by decide, by decide, by decide⟩, ?_⟩
  unfold HMM.Slice
  rw [if_pos ⟨by decide, by decide, by decide⟩]
  simp

/-- C5 (amended): `Slice` fails (a runtime range panic, modelled as
`none`) and returns no HMM precisely for `start < 0`,
`end > cap(nodes)` — the capacity of the Go node slice — or
`start ≥ end`; a pair with `0 ≤ start < end ≤ cap(nodes)` succeeds even
when `end > len(nodes)`, returning an HMM that ends in the backing
array's stale or zero cells. -/
theorem slice_invalid_bounds (hmm : HMM) (start stop : Int) :
    (start < 0 ∨ (hmm.cap : Int) < stop ∨ stop ≤ start →
      hmm.Slice start stop = none) ∧
    (0 ≤ start → start < stop → stop ≤ (hmm.cap : Int) →
      hmm.Slice start stop ≠ none) := by
  constructor
  · intro h
    unfold HMM.Slice
    rw [if_neg]
    rintro ⟨h0, h1, h2⟩
    omega
  · intro h0 h1 h2
    unfold HMM.Slice
    rw [if_pos ⟨h0, h1, h2⟩]
    simp

/-- Witness for the amended C5: the sample HMM fails at `(-1, 1)`, and
the spare-capacity HMM succeeds at `(0, 2)` past its length. -/
theorem slice_invalid_bounds_witness :
    (((-1 : Int) < 0 ∨ ((sampleHMM.cap : Int) < 1 ∨ (1 : Int) ≤ -1)) ∧
     sampleHMM.Slice (-1) 1 = none) ∧
    (((0 : Int) ≤ 0 ∧ (0 : Int) < 2 ∧ (2 : Int) ≤ (capHMM.cap : Int)) ∧
     capHMM.Slice 0 2 ≠ none) :=
  ⟨⟨Or.inl (by decide),
    (slice_invalid_bounds sampleHMM (-1) 1).1 (Or.inl (by decide))⟩,
   ⟨⟨by decide, by decide, by decide⟩,
    (slice_invalid_bounds capHMM 0 2).2 (by decide) (by decide) (by decide)⟩⟩

/-! ### Claim C3: Slice with valid bounds -/

/-- C3: for valid bounds `0 ≤ start < end ≤ len(nodes)`, `Slice` returns
an HMM with exactly `end - start` nodes; the last node is the source node
at `end - 1` with its seven transitions forced to
`(MM, MI, MD, IM, II, DM, DD) = (0, *, *, 0, *, 0, *)` regardless of the
original values, every other node equals the corresponding source node
verbatim, and alphabet and null model are carried over. -/
theorem slice_valid_spec (hmm : HMM) (start stop : Int)
    (h0 : 0 ≤ start) (h1 : start < stop)
    (h2 : stop ≤ (hmm.Nodes.length : Int)) :
    ∃ hs, hmm.Slice start stop = some hs ∧
      hs.Nodes.length = (stop - start).toNat ∧
      (∀ i, i + 1 < hs.Nodes.length →
        hs.Nodes[i]? = hmm.Nodes[start.toNat + i]?) ∧
      (∃ nd, hmm.Nodes[stop.toNat - 1]? = some nd ∧
        hs.Nodes.getLast? = some { nd with
          Transitions := ⟨0, MinProb, MinProb, 0, MinProb, 0, MinProb⟩ }) ∧
      hs.Alphabet = hmm.Alphabet ∧ hs.Null = hmm.Null := by
  have hcap : stop ≤ (hmm.cap : Int) := by
    unfold HMM.cap
    push_cast
    omega
  have hcond : 0 ≤ start ∧ start < stop ∧ stop ≤ (hmm.cap : Int) :=
    ⟨h0, h1, hcap⟩
  have hlen :
      (((hmm.Nodes ++ hmm.NodesSpare).drop start.toNat).take
        (stop - start).toNat).length
      = stop.toNat - start.toNat := by
    rw [List.length_take, List.length_drop, List.length_append]
    omega
  have hlast0 :
      (((hmm.Nodes ++ hmm.NodesSpare).drop start.toNat).take
        (stop - start).toNat).getLast?
      = hmm.Nodes[stop.toNat - 1]? := by
    rw [List.getLast?_eq_getElem?, hlen, List.getElem?_take_of_lt (by omega),
        List.getElem?_drop, List.getElem?_append_left (by omega)]
    congr 1
    omega
  have hbn1 : stop.toNat - 1 < hmm.Nodes.length := by omega
  obtain ⟨nd, hnd⟩ : ∃ nd, hmm.Nodes[stop.toNat - 1]? = some nd := by
    rw [List.getElem?_eq_getElem hbn1]
    exact ⟨_, rfl⟩
  have hlast :
      (((hmm.Nodes ++ hmm.NodesSpare).drop start.toNat).take
        (stop - start).toNat).getLast?
      = some nd := by rw [hlast0, hnd]
  unfold HMM.Slice
  rw [if_pos hcond]
  simp only [hlast]
  refine ⟨_, rfl, ?_, ?_, ⟨nd, hnd, ?_⟩, rfl, rfl⟩
  · simp only [List.length_append, List.length_dropLast, List.length_cons,
      List.length_nil, hlen]
    omega
  · intro i hi
    simp only [List.length_append, List.length_dropLast, List.length_cons,
      List.length_nil, hlen] at hi
    have hi' : i <
        (((hmm.Nodes ++ hmm.NodesSpare).drop start.toNat).take
          (stop - start).toNat).dropLast.length := by
      rw [List.length_dropLast, hlen]
      omega
    rw [List.getElem?_append_left hi', List.getElem?_dropLast,
      if_pos (by rw [hlen]; omega), List.getElem?_take_of_lt (by omega),
      List.getElem?_drop, List.getElem?_append_left (by omega)]
  · rw [List.getLast?_concat]
    rfl

/-- Witness for C3: slicing the two-node sample HMM at `(0, 1)`. -/
theorem slice_valid_spec_witness :
    ((0 : Int) ≤ 0 ∧ (0 : Int) < 1 ∧ (1 : Int) ≤ (sampleHMM.Nodes.length : Int)) ∧
    (∃ hs, sampleHMM.Slice 0 1 = some hs ∧
      hs.Nodes.length = ((1 : Int) - 0).toNat ∧
      (∀ i, i + 1 < hs.Nodes.length →
        hs.Nodes[i]? = sampleHMM.Nodes[(0 : Int).toNat + i]?) ∧
      (∃ nd, sampleHMM.Nodes[(1 : Int).toNat - 1]? = some nd ∧
        hs.Nodes.getLast? = some { nd with
          Transitions := ⟨0, MinProb, MinProb, 0, MinProb, 0, MinProb⟩ }) ∧
      hs.Alphabet = sampleHMM.Alphabet ∧ hs.Null = sampleHMM.Null) :=
  ⟨⟨by decide, by decide, by decide⟩,
   slice_valid_spec sampleHMM 0 1 (by decide) (by decide) (by decide)⟩

/-! ### Claim C8: Slice never mutates the source HMM -/

/-- C8: a `Slice` call with valid bounds leaves the receiver completely
unchanged while producing a sliced HMM.  In the Go source the method
writes only into the freshly allocated `nodes` array, and the forced
transitions target `TProbs`, a by-value struct inside the copied node,
so the receiver's post-state is its pre-state. -/
theorem slice_frame (hmm : HMM) (start stop : Int)
    (h0 : 0 ≤ start) (h1 : start < stop)
    (h2 : stop ≤ (hmm.Nodes.length : Int)) :
    (hmm.SliceSt start stop).1 = hmm ∧ (hmm.SliceSt start stop).2 ≠ none := by
  have hcap : stop ≤ (hmm.cap : Int) := by
    unfold HMM.cap
    push_cast
    omega
  refine ⟨rfl, ?_⟩
  unfold HMM.SliceSt HMM.Slice
  rw [if_pos ⟨h0, h1, hcap⟩]
  simp

/-- Witness for C8: the sample HMM sliced at `(0, 1)`. -/
theorem slice_frame_witness :
    ((0 : Int) ≤ 0 ∧ (0 : Int) < 1 ∧ (1 : Int) ≤ (sampleHMM.Nodes.length : Int)) ∧
    ((sampleHMM.SliceSt 0 1).1 = sampleHMM ∧ (sampleHMM.SliceSt 0 1).2 ≠ none) :=
  ⟨⟨by decide, by decide, by decide⟩,
   slice_frame sampleHMM 0 1 (by decide) (by decide) (by decide)⟩

/-! ### Claim C4: FrequencyProfile.Add -/

/-- Keys of a well-formed column decide lookup success. -/
lemma lookup_isSome_iff_keys {c : FreqMap} {A : List Residue}
    (h : c.map Prod.fst = A) (r : Residue) :
    (List.lookup r c).isSome ↔ r ∈ A := by
  induction c generalizing A with
  | nil =>
    subst h
    simp [List.lookup]
  | cons p ps ih =>
    subst h
    rw [List.map_cons, List.lookup_cons]
    by_cases hr : r = p.1
    · simp [hr]
    · rw [beq_eq_false_iff_ne.mpr hr]
      rw [ih rfl, List.mem_cons]
      exact ⟨Or.inr, fun hor => hor.elim (fun he => absurd he hr) id⟩

/-- The successful column loop increments, per position, the observed
residue's entry when its key is present and the wildcard entry
otherwise. -/
lemma addLoop_ok (A : List Residue) :
    ∀ (cs : List FreqMap) (rs : List Residue),
      (∀ c ∈ cs, c.map Prod.fst = A) → cs.length = rs.length →
      (∀ r ∈ rs, r ∈ A ∨ 'X' ∈ A) →
      addLoop cs rs =
        (List.zipWith
          (fun c r => if r ∈ A then FreqMap.incr c r else FreqMap.incr c 'X')
          cs rs, none) := by
  intro cs
  induction cs with
  | nil =>
    intro rs _ hlen _
    have : rs = [] := List.eq_nil_of_length_eq_zero hlen.symm
    subst this
    rfl
  | cons c cs ih =>
    intro rs hkeys hlen hres
    match rs with
    | [] => exact absurd hlen (by simp)
    | r :: rs =>
      have hkey : c.map Prod.fst = A := hkeys c (List.mem_cons_self c cs)
      have hrec := ih rs (fun x hx => hkeys x (List.mem_cons_of_mem c hx))
        (by simpa using hlen) (fun x hx => hres x (List.mem_cons_of_mem r hx))
      by_cases hr : r ∈ A
      · have hfound : (List.lookup r c).isSome :=
          (lookup_isSome_iff_keys hkey r).mpr hr
        simp only [addLoop, hfound, if_pos, List.zipWith_cons_cons, hrec,
          if_pos hr]
      · have hX : 'X' ∈ A :=
          (hres r (List.mem_cons_self r rs)).resolve_left hr
        have hnotfound : ¬ (List.lookup r c).isSome := by
          rw [lookup_isSome_iff_keys hkey r]
          exact hr
        have hXfound : (List.lookup 'X' c).isSome :=
          (lookup_isSome_iff_keys hkey 'X').mpr hX
        simp only [addLoop, hnotfound, hXfound, if_pos, if_neg, if_false,
          List.zipWith_cons_cons, hrec, if_neg hr]
        simp

/-- When no wildcard is available and some residue is unrecognized, the
column loop reports an `UnrecognizedResidue` panic. -/
lemma addLoop_err (A : List Residue) :
    ∀ (cs : List FreqMap) (rs : List Residue),
      (∀ c ∈ cs, c.map Prod.fst = A) → cs.length = rs.length →
      'X' ∉ A → (∃ r ∈ rs, r ∉ A) →
      ∃ r, r ∉ A ∧ (addLoop cs rs).2 = some (SeqError.UnrecognizedResidue r) := by
  intro cs
  induction cs with
  | nil =>
    intro rs _ hlen _ hbad
    have : rs = [] := List.eq_nil_of_length_eq_zero hlen.symm
    subst this
    obtain ⟨r, hr, _⟩ := hbad
    exact absurd hr (List.not_mem_nil r)
  | cons c cs ih =>
    intro rs hkeys hlen hX hbad
    match rs with
    | [] => exact absurd hlen (by simp)
    | r :: rs =>
      have hkey : c.map Prod.fst = A := hkeys c (List.mem_cons_self c cs)
      by_cases hr : r ∈ A
      · have hfound : (List.lookup r c).isSome :=
          (lookup_isSome_iff_keys hkey r).mpr hr
        obtain ⟨rbad, hrbad, hbad2⟩ := hbad
        have hrtail : ∃ x ∈ rs, x ∉ A := by
          rcases List.mem_cons.mp hrbad with he | ht
          · exact absurd (he ▸ hr) hbad2
          · exact ⟨rbad, ht, hbad2⟩
        obtain ⟨x, hx1, hx2⟩ := ih rs
          (fun y hy => hkeys y (List.mem_cons_of_mem c hy))
          (by simpa using hlen) hX hrtail
        refine ⟨x, hx1, ?_⟩
        simp only [addLoop, hfound, if_pos]
        exact hx2
      · have hnotfound : ¬ (List.lookup r c).isSome := by
          rw [lookup_isSome_iff_keys hkey r]
          exact hr
        have hXnot : ¬ (List.lookup 'X' c).isSome := by
          rw [lookup_isSome_iff_keys hkey 'X']
          exact hX
        refine ⟨r, hr, ?_⟩
        simp only [addLoop, hnotfound, hXnot, if_neg, if_false]
        simp

/-- C4: `add` fails with a `LengthMismatch` when the sequence length
differs from the column count; otherwise each position independently
increments the observed residue's count when the residue is in the
alphabet, falls back to the wildcard `X` when the alphabet defines one,
and fails with `UnrecognizedResidue` when neither holds. -/
theorem add_spec (fp : FrequencyProfile) (s : Sequence)
    (hwf : fp.Wf) :
    (fp.Len ≠ s.length →
      fp.Add s = (fp, some (SeqError.LengthMismatch fp.Len s.length))) ∧
    (fp.Len = s.length → (∀ r ∈ s, r ∈ fp.Alphabet ∨ 'X' ∈ fp.Alphabet) →
      fp.Add s = ({ fp with
                    Freqs := List.zipWith
                      (fun c r => if r ∈ fp.Alphabet then FreqMap.incr c r
                                  else FreqMap.incr c 'X')
                      fp.Freqs s }, none)) ∧
    (fp.Len = s.length → 'X' ∉ fp.Alphabet → (∃ r ∈ s, r ∉ fp.Alphabet) →
      ∃ r, r ∉ fp.Alphabet ∧
        (fp.Add s).2 = some (SeqError.UnrecognizedResidue r)) := by
  refine ⟨?_, ?_, ?_⟩
  · intro hne
    unfold FrequencyProfile.Add
    rw [if_pos hne]
  · intro heq hres
    unfold FrequencyProfile.Add
    rw [if_neg (fun hc => hc heq)]
    rw [addLoop_ok fp.Alphabet fp.Freqs s hwf.2 heq hres]
  · intro heq hX hbad
    obtain ⟨r, hr1, hr2⟩ := addLoop_err fp.Alphabet fp.Freqs s hwf.2 heq hX hbad
    refine ⟨r, hr1, ?_⟩
    unfold FrequencyProfile.Add
    rw [if_neg (fun hc => hc heq)]
    exact hr2

/-- Witness for C4: adding the sequence `A` to a one-column profile over
the alphabet `[A]`. -/
theorem add_spec_witness :
    (FrequencyProfile.Wf ⟨[[('A', 0)]], ['A']⟩ ∧
     FrequencyProfile.Len ⟨[[('A', 0)]], ['A']⟩ = (['A'] : Sequence).length ∧
     (∀ r ∈ (['A'] : Sequence), r ∈ (['A'] : Alphabet) ∨ 'X' ∈ (['A'] : Alphabet))) ∧
    FrequencyProfile.Add ⟨[[('A', 0)]], ['A']⟩ ['A'] =
      ({ Freqs := List.zipWith
          (fun c r => if r ∈ (['A'] : Alphabet) then FreqMap.incr c r
                      else FreqMap.incr c 'X')
          [[('A', 0)]] ['A'], Alphabet := ['A'] }, none) :=
  ⟨⟨⟨by decide, by decide⟩, rfl, by decide⟩,
   (add_spec ⟨[[('A', 0)]], ['A']⟩ ['A'] ⟨by decide, by decide⟩).2.1 rfl
     (by decide)⟩

/-! ### Claim C6: failure atomicity -/

/-- C6 counterexample: `Add` on a two-column profile (alphabet `[A]`, no
wildcard) with the sequence `AB` reports an `UnrecognizedResidue` failure
at column 1, yet column 0 has already been incremented: the reported
post-state of the receiver differs from its pre-state, so the failure is
not atomic. -/
theorem add_not_atomic_cex :
    (FrequencyProfile.Add ⟨[[('A', 0)], [('A', 0)]], ['A']⟩ ['A', 'B']).2 =
      some (SeqError.UnrecognizedResidue 'B') ∧
    (FrequencyProfile.Add ⟨[[('A', 0)], [('A', 0)]], ['A']⟩ ['A', 'B']).1.Freqs
      = [[('A', 1)], [('A', 0)]] ∧
    [[('A', 1)], [('A', 0)]] ≠ [[(('A' : Residue), (0 : ℕ))], [('A', 0)]] := by
  refine ⟨by decide, by decide, by decide⟩

/-- C6 amended: failures raised by the up-front validation checks leave
all state unchanged — `Add`'s length-mismatch panic happens before any
mutation, and `Slice` (like `toProfile`) never writes to its inputs at
all — but `Add`'s mid-loop `UnrecognizedResidue` panic is excluded: it
can leave earlier columns already incremented. -/
theorem fail_frame_amended (fp : FrequencyProfile) (s : Sequence)
    (h : fp.Len ≠ s.length) :
    ((fp.Add s).1 = fp ∧
     (fp.Add s).2 = some (SeqError.LengthMismatch fp.Len s.length)) ∧
    ∀ (hm : HMM) (a b : Int), (hm.SliceSt a b).1 = hm := by
  refine ⟨?_, fun hm a b => rfl⟩
  unfold FrequencyProfile.Add
  rw [if_pos h]
  exact ⟨rfl, rfl⟩

/-- Witness for the amended C6 on a length-mismatched call. -/
theorem fail_frame_amended_witness :
    (FrequencyProfile.Len ⟨[], ['A']⟩ ≠ (['A'] : Sequence).length) ∧
    (((FrequencyProfile.Add ⟨[], ['A']⟩ ['A']).1 = ⟨[], ['A']⟩ ∧
      (FrequencyProfile.Add ⟨[], ['A']⟩ ['A']).2 =
        some (SeqError.LengthMismatch (FrequencyProfile.Len ⟨[], ['A']⟩)
          (['A'] : Sequence).length)) ∧
     ∀ (hm : HMM) (a b : Int), (hm.SliceSt a b).1 = hm) :=
  ⟨by decide, fail_frame_amended ⟨[], ['A']⟩ ['A'] (by decide)⟩

/-! ### Claim C1: toProfile -/

/-- Looking up a residue of the alphabet in a table that pairs each
alphabet residue with a value finds that value. -/
lemma lookup_map_self {a : Alphabet} {r : Residue} (f : Residue → Prob)
    (h : r ∈ a) :
    List.lookup r (a.map (fun x => (x, f x))) = some (f r) := by
  induction a with
  | nil => exact absurd h (List.not_mem_nil r)
  | cons x xs ih =>
    rw [List.map_cons, List.lookup_cons]
    by_cases hx : r = x
    · subst hx
      simp
    · rw [beq_eq_false_iff_ne.mpr hx]
      exact ih ((List.mem_cons.mp h).resolve_left hx)

/-- C1: with a one-column background over an equal alphabet, `toProfile`
yields a profile with `fp`'s column count in which the emission for
residue `r` in column `c` is `MinProb` when the background count or the
column count of `r` is zero, and
`-ln((count/colTotal) / (backgroundCount/bgTotal))` otherwise, `colTotal`
and `bgTotal` summing all counts of the column resp. of the background's
single column. -/
theorem toProfile_spec (fp null : FrequencyProfile)
    (h1 : null.Len = 1) (h2 : fp.Alphabet = null.Alphabet) :
    ∃ p, fp.Profile null = some p ∧ p.Len = fp.Len ∧
      ∀ c r, c < fp.Len → r ∈ fp.Alphabet →
        List.lookup r (p.Emissions.getD c []) = some (
          if FreqMap.get (null.Freqs.getD 0 []) r = 0 ∨
             FreqMap.get (fp.Freqs.getD c []) r = 0 then MinProb
          else -(Real.log
            (((FreqMap.get (fp.Freqs.getD c []) r : ℝ) /
              (freqTotal (fp.Freqs.getD c []) : ℝ)) /
             ((FreqMap.get (null.Freqs.getD 0 []) r : ℝ) /
              (freqTotal (null.Freqs.getD 0 []) : ℝ))))) := by
  have hEq : Alphabet.Equals fp.Alphabet null.Alphabet = true := by
    rw [Alphabet.Equals, h2]
    simp
  unfold FrequencyProfile.Profile
  rw [if_neg (fun hc => hc h1), if_neg (not_not_intro hEq)]
  refine ⟨_, rfl, ?_, ?_⟩
  · simp [Profile.Len, FrequencyProfile.Len]
  · intro c r hc hr
    have hc' : c < fp.Freqs.length := hc
    rw [List.getD_eq_getElem?_getD, List.getElem?_map,
      List.getElem?_eq_getElem hc']
    simp only [Option.map_some', Option.getD_some]
    rw [lookup_map_self _ hr]
    have hgd : fp.Freqs[c] = fp.Freqs.getD c [] := by
      rw [List.getD_eq_getElem?_getD, List.getElem?_eq_getElem hc']
      rfl
    rw [hgd]

/-- Witness for C1: a one-column profile and a background, both over the
alphabet `[A]`. -/
theorem toProfile_spec_witness :
    (FrequencyProfile.Len ⟨[[('A', 2)]], ['A']⟩ = 1 ∧
     (⟨[[('A', 1)]], ['A']⟩ : FrequencyProfile).Alphabet =
       (⟨[[('A', 2)]], ['A']⟩ : FrequencyProfile).Alphabet) ∧
    (∃ p, FrequencyProfile.Profile ⟨[[('A', 1)]], ['A']⟩ ⟨[[('A', 2)]], ['A']⟩
        = some p ∧
      p.Len = FrequencyProfile.Len ⟨[[('A', 1)]], ['A']⟩ ∧
      ∀ c r, c < FrequencyProfile.Len ⟨[[('A', 1)]], ['A']⟩ →
        r ∈ (⟨[[('A', 1)]], ['A']⟩ : FrequencyProfile).Alphabet →
        List.lookup r (p.Emissions.getD c []) = some (
          if FreqMap.get ((⟨[[('A', 2)]], ['A']⟩ : FrequencyProfile).Freqs.getD 0 []) r = 0 ∨
             FreqMap.get ((⟨[[('A', 1)]], ['A']⟩ : FrequencyProfile).Freqs.getD c []) r = 0 then MinProb
          else -(Real.log
            (((FreqMap.get ((⟨[[('A', 1)]], ['A']⟩ : FrequencyProfile).Freqs.getD c []) r : ℝ) /
              (freqTotal ((⟨[[('A', 1)]], ['A']⟩ : FrequencyProfile).Freqs.getD c []) : ℝ)) /
             ((FreqMap.get ((⟨[[('A', 2)]], ['A']⟩ : FrequencyProfile).Freqs.getD 0 []) r : ℝ) /
              (freqTotal ((⟨[[('A', 2)]], ['A']⟩ : FrequencyProfile).Freqs.getD 0 []) : ℝ)))))) :=
  ⟨⟨rfl, rfl⟩, toProfile_spec ⟨[[('A', 1)]], ['A']⟩ ⟨[[('A', 2)]], ['A']⟩ rfl rfl⟩

/-! ### Claim C2: alignment identity -/

lemma nwScore_zero_zero (sub : Residue → Residue → ℤ) (g : ℤ)
    (A B : List Residue) : nwScore sub g A B 0 0 = 0 := by
  simp [nwScore]

lemma nwScore_succ_zero (sub : Residue → Residue → ℤ) (g : ℤ)
    (A B : List Residue) (i : ℕ) :
    nwScore sub g A B (i + 1) 0 = nwScore sub g A B i 0 + g := by
  simp [nwScore]

lemma nwScore_zero_succ (sub : Residue → Residue → ℤ) (g : ℤ)
    (A B : List Residue) (j : ℕ) :
    nwScore sub g A B 0 (j + 1) = nwScore sub g A B 0 j + g := by
  simp [nwScore]

lemma nwScore_succ_succ (sub : Residue → Residue → ℤ) (g : ℤ)
    (A B : List Residue) (i j : ℕ) :
    nwScore sub g A B (i + 1) (j + 1) =
      max (max (nwScore sub g A B i j + sub (A.getD i gapSym) (B.getD j gapSym))
               (nwScore sub g A B i (j + 1) + g))
          (nwScore sub g A B (i + 1) j + g) := by
  simp [nwScore]

lemma nwTrace_succ_succ (sub : Residue → Residue → ℤ) (g : ℤ)
    (A B : List Residue) (i j : ℕ) :
    nwTrace sub g A B (i + 1) (j + 1) =
      if nwScore sub g A B (i + 1) (j + 1) =
          nwScore sub g A B i j + sub (A.getD i gapSym) (B.getD j gapSym) then
        ((nwTrace sub g A B i j).1 ++ [A.getD i gapSym],
         (nwTrace sub g A B i j).2 ++ [B.getD j gapSym])
      else if nwScore sub g A B (i + 1) (j + 1) =
          nwScore sub g A B i (j + 1) + g then
        ((nwTrace sub g A B i (j + 1)).1 ++ [A.getD i gapSym],
         (nwTrace sub g A B i (j + 1)).2 ++ [gapSym])
      else
        ((nwTrace sub g A B (i + 1) j).1 ++ [gapSym],
         (nwTrace sub g A B (i + 1) j).2 ++ [B.getD j gapSym]) := by
  simp [nwTrace]

/-- Row 0 of the DP matrix accumulates the gap penalty. -/
lemma nwScore_row_zero (sub : Residue → Residue → ℤ) (g : ℤ)
    (A B : List Residue) : ∀ i, nwScore sub g A B i 0 = (i : ℤ) * g := by
  intro i
  induction i with
  | zero => simp [nwScore_zero_zero]
  | succ i ih =>
    rw [nwScore_succ_zero, ih]
    push_cast
    ring

/-- Column 0 of the DP matrix accumulates the gap penalty. -/
lemma nwScore_col_zero (sub : Residue → Residue → ℤ) (g : ℤ)
    (A B : List Residue) : ∀ j, nwScore sub g A B 0 j = (j : ℤ) * g := by
  intro j
  induction j with
  | zero => simp [nwScore_zero_zero]
  | succ j ih =>
    rw [nwScore_zero_succ, ih]
    push_cast
    ring

/-- The diagonal candidate is a lower bound for a diagonal cell. -/
lemma nwScore_diag_le (sub : Residue → Residue → ℤ) (g : ℤ)
    (s : List Residue) (k : ℕ) :
    nwScore sub g s s k k + sub (s.getD k gapSym) (s.getD k gapSym) ≤
      nwScore sub g s s (k + 1) (k + 1) := by
  rw [nwScore_succ_succ]
  exact le_trans (le_max_left _ _) (le_max_left _ _)

/-- Below the diagonal, a DP cell is at most the diagonal cell of its
column plus one gap penalty per row of excess. -/
lemma nwScore_below_diag (sub : Residue → Residue → ℤ) (g : ℤ)
    (s : List Residue) (hsub : ∀ a b, sub a b ≤ sub b b)
    (hg : ∀ a, 2 * g ≤ sub a a) :
    ∀ k i j, i + j = k → j ≤ i →
      nwScore sub g s s i j ≤
        nwScore sub g s s j j + ((i : ℤ) - (j : ℤ)) * g := by
  intro k
  induction k using Nat.strong_induction_on with
  | _ k ih =>
    intro i j hk hji
    by_cases hij : i = j
    · subst hij
      simp
    · have hlt : j < i := by omega
      rcases j with _ | j
      · rw [nwScore_row_zero, nwScore_zero_zero]
        have : ((i : ℤ) - ((0 : ℕ) : ℤ)) * g = (i : ℤ) * g := by push_cast; ring
        rw [this]
        simp
      · rcases i with _ | i
        · omega
        · rw [nwScore_succ_succ]
          have hd : nwScore sub g s s i j +
              sub (s.getD i gapSym) (s.getD j gapSym) ≤
              nwScore sub g s s (j + 1) (j + 1) + ((i : ℤ) - (j : ℤ)) * g := by
            have h1 := ih (i + j) (by omega) i j rfl (by omega)
            have h2 := nwScore_diag_le sub g s j
            have h3 := hsub (s.getD i gapSym) (s.getD j gapSym)
            linarith
          have hu : nwScore sub g s s i (j + 1) + g ≤
              nwScore sub g s s (j + 1) (j + 1) + ((i : ℤ) - (j : ℤ)) * g := by
            have h1 := ih (i + (j + 1)) (by omega) i (j + 1) rfl (by omega)
            have heq : ((i : ℤ) - ((j + 1 : ℕ) : ℤ)) * g + g =
                ((i : ℤ) - (j : ℤ)) * g := by push_cast; ring
            linarith
          have hl : nwScore sub g s s (i + 1) j + g ≤
              nwScore sub g s s (j + 1) (j + 1) + ((i : ℤ) - (j : ℤ)) * g := by
            have h1 := ih ((i + 1) + j) (by omega) (i + 1) j rfl (by omega)
            have h2 := nwScore_diag_le sub g s j
            have h3 := hg (s.getD j gapSym)
            have heq : (((i + 1 : ℕ) : ℤ) - (j : ℤ)) * g + g =
                ((i : ℤ) - (j : ℤ)) * g + 2 * g := by push_cast; ring
            linarith
          have hre : (((i + 1 : ℕ) : ℤ) - ((j + 1 : ℕ) : ℤ)) * g =
              ((i : ℤ) - (j : ℤ)) * g := by push_cast; ring
          rw [hre]
          exact max_le (max_le hd hu) hl

/-- Above the diagonal, a DP cell is at most the diagonal cell of its
row plus one gap penalty per column of excess. -/
lemma nwScore_above_diag (sub : Residue → Residue → ℤ) (g : ℤ)
    (s : List Residue) (hsub : ∀ a b, sub a b ≤ sub a a)
    (hg : ∀ a, 2 * g ≤ sub a a) :
    ∀ k i j, i + j = k → i ≤ j →
      nwScore sub g s s i j ≤
        nwScore sub g s s i i + ((j : ℤ) - (i : ℤ)) * g := by
  intro k
  induction k using Nat.strong_induction_on with
  | _ k ih =>
    intro i j hk hij'
    by_cases hij : i = j
    · subst hij
      simp
    · have hlt : i < j := by omega
      rcases i with _ | i
      · rw [nwScore_col_zero, nwScore_zero_zero]
        have : ((j : ℤ) - ((0 : ℕ) : ℤ)) * g = (j : ℤ) * g := by push_cast; ring
        rw [this]
        simp
      · rcases j with _ | j
        · omega
        · rw [nwScore_succ_succ]
          have hd : nwScore sub g s s i j +
              sub (s.getD i gapSym) (s.getD j gapSym) ≤
              nwScore sub g s s (i + 1) (i + 1) + ((j : ℤ) - (i : ℤ)) * g := by
            have h1 := ih (i + j) (by omega) i j rfl (by omega)
            have h2 := nwScore_diag_le sub g s i
            have h3 := hsub (s.getD i gapSym) (s.getD j gapSym)
            linarith
          have hu : nwScore sub g s s i (j + 1) + g ≤
              nwScore sub g s s (i + 1) (i + 1) + ((j : ℤ) - (i : ℤ)) * g := by
            have h1 := ih (i + (j + 1)) (by omega) i (j + 1) rfl (by omega)
            have h2 := nwScore_diag_le sub g s i
            have h3 := hg (s.getD i gapSym)
            have heq : (((j + 1 : ℕ) : ℤ) - (i : ℤ)) * g + g =
                ((j : ℤ) - (i : ℤ)) * g + 2 * g := by push_cast; ring
            linarith
          have hl : nwScore sub g s s (i + 1) j + g ≤
              nwScore sub g s s (i + 1) (i + 1) + ((j : ℤ) - (i : ℤ)) * g := by
            have h1 := ih ((i + 1) + j) (by omega) (i + 1) j rfl (by omega)
            have heq : ((j : ℤ) - ((i + 1 : ℕ) : ℤ)) * g + g =
                ((j : ℤ) - (i : ℤ)) * g := by push_cast; ring
            linarith
          have hre : (((j + 1 : ℕ) : ℤ) - ((i + 1 : ℕ) : ℤ)) * g =
              ((j : ℤ) - (i : ℤ)) * g := by push_cast; ring
          rw [hre]
          exact max_le (max_le hd hu) hl

/-- Aligning a sequence against itself makes every diagonal cell take the
diagonal (substitution) candidate. -/
lemma nwScore_diag_succ (sub : Residue → Residue → ℤ) (g : ℤ)
    (s : List Residue) (hsub1 : ∀ a b, sub a b ≤ sub a a)
    (hsub2 : ∀ a b, sub a b ≤ sub b b) (hg : ∀ a, 2 * g ≤ sub a a) (i : ℕ) :
    nwScore sub g s s (i + 1) (i + 1) =
      nwScore sub g s s i i + sub (s.getD i gapSym) (s.getD i gapSym) := by
  rw [nwScore_succ_succ]
  have heq : (((i + 1 : ℕ) : ℤ) - (i : ℤ)) * g = g := by push_cast; ring
  have hu : nwScore sub g s s i (i + 1) + g ≤
      nwScore sub g s s i i + sub (s.getD i gapSym) (s.getD i gapSym) := by
    have h1 := nwScore_above_diag sub g s hsub1 hg (i + (i + 1)) i (i + 1)
      rfl (by omega)
    have h3 := hg (s.getD i gapSym)
    linarith
  have hl : nwScore sub g s s (i + 1) i + g ≤
      nwScore sub g s s i i + sub (s.getD i gapSym) (s.getD i gapSym) := by
    have h1 := nwScore_below_diag sub g s hsub2 hg ((i + 1) + i) (i + 1) i
      rfl (by omega)
    have h3 := hg (s.getD i gapSym)
    linarith
  rw [max_eq_left hu, max_eq_left hl]

/-- The traceback of a self-alignment follows the main diagonal. -/
lemma nwTrace_diag (sub : Residue → Residue → ℤ) (g : ℤ)
    (s : List Residue) (hsub1 : ∀ a b, sub a b ≤ sub a a)
    (hsub2 : ∀ a b, sub a b ≤ sub b b) (hg : ∀ a, 2 * g ≤ sub a a) :
    ∀ i, i ≤ s.length → nwTrace sub g s s i i = (s.take i, s.take i) := by
  intro i
  induction i with
  | zero =>
    intro _
    simp [nwTrace]
  | succ i ih =>
    intro hi
    rw [nwTrace_succ_succ,
      if_pos (nwScore_diag_succ sub g s hsub1 hsub2 hg i), ih (by omega)]
    have hilen : i < s.length := by omega
    have htake : s.take (i + 1) = s.take i ++ [s.getD i gapSym] := by
      rw [List.take_succ, List.getElem?_eq_getElem hilen,
        List.getD_eq_getElem s gapSym hilen]
      rfl
    rw [htake]

/-- C2: aligning a non-empty sequence with itself returns the sequence
unchanged on both sides, hence gap-free.  The default scoring source is
an external constant; the hypotheses record the standard
substitution-matrix facts it satisfies (a residue matches itself at
least as well as anything else, and a self-match is worth at least two
gap penalties). -/
theorem needlemanWunsch_self (sub : Residue → Residue → ℤ) (g : ℤ)
    (hsub1 : ∀ a b, sub a b ≤ sub a a) (hsub2 : ∀ a b, sub a b ≤ sub b b)
    (hg : ∀ a, 2 * g ≤ sub a a) (s : Sequence) (hs : s ≠ []) :
    NeedlemanWunsch sub g s s = (s, s) := by
  unfold NeedlemanWunsch
  rw [nwTrace_diag sub g s hsub1 hsub2 hg s.length le_rfl, List.take_length]

def sampleSub : Residue → Residue → ℤ := fun a b => if a = b then 1 else -1

lemma sampleSub_self (a : Residue) : sampleSub a a = 1 := by
  simp [sampleSub]

lemma sampleSub_le_left (a b : Residue) : sampleSub a b ≤ sampleSub a a := by
  rw [sampleSub_self]
  unfold sampleSub
  split <;> omega

lemma sampleSub_le_right (a b : Residue) : sampleSub a b ≤ sampleSub b b := by
  rw [sampleSub_self]
  unfold sampleSub
  split <;> omega

lemma sampleSub_gap (a : Residue) : 2 * (-1 : ℤ) ≤ sampleSub a a := by
  rw [sampleSub_self]
  omega

/-- Witness for C2: the two-residue sequence `AB` aligned against itself
under a concrete match/mismatch scoring with gap penalty `-1`. -/
theorem needlemanWunsch_self_witness :
    ((['A', 'B'] : Sequence) ≠ [] ∧
     (∀ a b, sampleSub a b ≤ sampleSub a a) ∧
     (∀ a b, sampleSub a b ≤ sampleSub b b) ∧
     (∀ a, 2 * (-1 : ℤ) ≤ sampleSub a a)) ∧
    NeedlemanWunsch sampleSub (-1) ['A', 'B'] ['A', 'B'] = (['A', 'B'], ['A', 'B']) :=
  ⟨⟨by decide, sampleSub_le_left, sampleSub_le_right, sampleSub_gap⟩,
   needlemanWunsch_self sampleSub (-1) sampleSub_le_left sampleSub_le_right
     sampleSub_gap ['A', 'B'] (by decide)⟩

end Seq
